import Mathlib

/-!
Shallow embedding of `src/cwe_checker_rs/src/analysis/pointer_inference/data.rs`:
the abstract-value domain (`Data`, `PointerDomain`) of the pointer-inference
analysis, together with models of its external dependencies (the bit-vector
value domain, the abstract identifier and the BIL operator types), which are
declared in other crates/modules of the repository and are therefore modelled
from the specification.
-/

namespace CweChecker

/-- Embeds `BitSize` from the BIL module: the width of a value in bits. -/
abbrev BitSize := Nat

/-- Modelled from the spec: the abstract identifier is an external, opaque,
totally ordered, comparable key naming an abstract memory object
(`super::identifier::AbstractIdentifier`, not under src/). We embed it as an
opaque ordered key via `Nat`; this file never inspects its structure beyond
ordering and equality, as the spec requires. -/
abbrev AbstractIdentifier := Nat

/-- Modelled from the spec: a fixed-width bit-vector (`crate::bil::Bitvector`,
not under src/): a width in bits together with an unsigned value; a
well-formed bit-vector stores `val < 2 ^ width`. -/
structure Bitvector where
  width : BitSize
  val : Nat
deriving DecidableEq, Repr

/-- A bit-vector is well-formed when its value fits in its width. -/
def Bitvector.wf (b : Bitvector) : Prop := b.val < 2 ^ b.width

/-- Modelled from the spec: the BIL binary operator type
(`crate::bil::BinOpType`, not under src/), restricted to the operators the
abstract domain distinguishes (`PLUS`, `MINUS`) plus representatives of the
fall-through class (bitwise and multiplicative operators). -/
inductive BinOpType where
  | PLUS
  | MINUS
  | TIMES
  | AND
  | OR
deriving DecidableEq, Repr

/-- Modelled from the spec: the BIL unary operator type
(`crate::bil::UnOpType`, not under src/). -/
inductive UnOpType where
  | NEG
  | NOT
deriving DecidableEq, Repr

/-- Modelled from the spec: the BIL cast kind (`crate::bil::CastType`, not
under src/): zero- or sign-extension (or truncation) to a requested width. -/
inductive CastType where
  | UNSIGNED
  | SIGNED
deriving DecidableEq, Repr

/-- Modelled from the spec: exact fixed-width bit-vector arithmetic, as
supplied by the external bit-vector library. The result width of an
arithmetic or bitwise operation is the left operand's width and the value is
reduced modulo `2 ^ width`. -/
def Bitvector.binop : BinOpType → Bitvector → Bitvector → Bitvector
  | .PLUS, b1, b2 => ⟨b1.width, (b1.val + b2.val) % 2 ^ b1.width⟩
  | .MINUS, b1, b2 => ⟨b1.width, (b1.val + 2 ^ b1.width - b2.val % 2 ^ b1.width) % 2 ^ b1.width⟩
  | .TIMES, b1, b2 => ⟨b1.width, (b1.val * b2.val) % 2 ^ b1.width⟩
  | .AND, b1, b2 => ⟨b1.width, b1.val &&& b2.val⟩
  | .OR, b1, b2 => ⟨b1.width, (b1.val ||| b2.val) % 2 ^ b1.width⟩

/-- Modelled from the spec: exact unary bit-vector operations. -/
def Bitvector.unop : UnOpType → Bitvector → Bitvector
  | .NEG, b => ⟨b.width, (2 ^ b.width - b.val % 2 ^ b.width) % 2 ^ b.width⟩
  | .NOT, b => ⟨b.width, 2 ^ b.width - 1 - b.val % 2 ^ b.width⟩

/-- Modelled from the spec: extraction of the bits `[low, high]` of a
bit-vector, producing a bit-vector of width `high - low + 1`. -/
def Bitvector.extract (b : Bitvector) (low high : BitSize) : Bitvector :=
  ⟨high - low + 1, (b.val / 2 ^ low) % 2 ^ (high - low + 1)⟩

/-- Modelled from the spec: zero- or sign-extension (or truncation) of a
bit-vector to the requested width. -/
def Bitvector.cast (b : Bitvector) (kind : CastType) (width : BitSize) : Bitvector :=
  match kind with
  | .UNSIGNED => ⟨width, b.val % 2 ^ width⟩
  | .SIGNED =>
    ⟨width, (if 2 * b.val < 2 ^ b.width then b.val else b.val + (2 ^ width - 2 ^ b.width)) % 2 ^ width⟩

/-- Modelled from the spec: concatenation, with `b1` as the more-significant
part and `b2` as the less-significant part. -/
def Bitvector.concat (b1 b2 : Bitvector) : Bitvector :=
  ⟨b1.width + b2.width, b1.val * 2 ^ b2.width + b2.val⟩

/-- Modelled from the spec: the external exact-or-top abstract domain over
fixed-width bit-vectors (`BitvectorDomain` of
`crate::analysis::abstract_domain`, not under src/): either an exact
bit-vector value or `Top` at a known width. -/
inductive BitvectorDomain where
  | Value : Bitvector → BitvectorDomain
  | Top : BitSize → BitvectorDomain
deriving DecidableEq, Repr

/-- Modelled from the spec: the bitsize of a bit-vector-domain element. -/
def BitvectorDomain.bitsize : BitvectorDomain → BitSize
  | .Value b => b.width
  | .Top s => s

/-- Modelled from the spec: the top element of the bit-vector domain at a
given width. -/
def BitvectorDomain.new_top (bitsize : BitSize) : BitvectorDomain :=
  .Top bitsize

/-- Modelled from the spec: binary operations delegate to exact bit-vector
arithmetic on two exact values and collapse to `Top` at the left operand's
bitsize whenever an operand is `Top`. -/
def BitvectorDomain.bin_op : BitvectorDomain → BinOpType → BitvectorDomain → BitvectorDomain
  | .Value b1, op, .Value b2 => .Value (Bitvector.binop op b1 b2)
  | d, _, _ => .Top d.bitsize

/-- Modelled from the spec: unary operations on the bit-vector domain. -/
def BitvectorDomain.un_op : BitvectorDomain → UnOpType → BitvectorDomain
  | .Value b, op => .Value (Bitvector.unop op b)
  | d, _ => .Top d.bitsize

/-- Modelled from the spec: extraction on the bit-vector domain; the result
width is the extracted width `high - low + 1`. -/
def BitvectorDomain.extract : BitvectorDomain → BitSize → BitSize → BitvectorDomain
  | .Value b, low, high => .Value (b.extract low high)
  | .Top _, low, high => .Top (high - low + 1)

/-- Modelled from the spec: cast on the bit-vector domain; the result width is
the requested width. -/
def BitvectorDomain.cast : BitvectorDomain → CastType → BitSize → BitvectorDomain
  | .Value b, kind, width => .Value (b.cast kind width)
  | .Top _, _, width => .Top width

/-- Modelled from the spec: concatenation on the bit-vector domain; the result
width is the sum of the operand widths. -/
def BitvectorDomain.concat : BitvectorDomain → BitvectorDomain → BitvectorDomain
  | .Value b1, .Value b2 => .Value (b1.concat b2)
  | d1, d2 => .Top (d1.bitsize + d2.bitsize)

/-- Modelled from the spec: the bit-vector domain's merge, an exact-or-top
lattice join: equal elements merge to themselves, unequal elements collapse to
`Top` at the left operand's bitsize (the spec's concrete scenario: merging the
64-bit constants 42 and 41 yields bit-vector `Top(64)`). -/
def BitvectorDomain.merge (d1 d2 : BitvectorDomain) : BitvectorDomain :=
  if d1 = d2 then d1 else .Top d1.bitsize

/-- Well-formedness of a bit-vector-domain element: an exact value fits in its
width (always true of the external bit-vector library's values). -/
def BitvectorDomain.wf : BitvectorDomain → Prop
  | .Value b => b.wf
  | .Top _ => True

/-- Models `BTreeMap::insert` on the sorted association list that models
`BTreeMap<AbstractIdentifier, BitvectorDomain>`: insert keeps keys strictly
sorted and replaces the value of an existing key. -/
def btreeInsert (k : AbstractIdentifier) (v : BitvectorDomain) :
    List (AbstractIdentifier × BitvectorDomain) → List (AbstractIdentifier × BitvectorDomain)
  | [] => [(k, v)]
  | e :: rest =>
    if k < e.1 then (k, v) :: e :: rest
    else if k = e.1 then (k, v) :: rest
    else e :: btreeInsert k v rest

/-- Models `BTreeMap` lookup (`contains_key` / index) on the association-list
model. -/
def btreeLookup (k : AbstractIdentifier) :
    List (AbstractIdentifier × BitvectorDomain) → Option BitvectorDomain
  | [] => none
  | e :: rest => if k = e.1 then some e.2 else btreeLookup k rest

/-- Strict sortedness of the keys: the `BTreeMap` representation invariant. -/
def EntriesSorted (l : List (AbstractIdentifier × BitvectorDomain)) : Prop :=
  l.Pairwise (fun a b => a.1 < b.1)

theorem mem_btreeInsert {k : AbstractIdentifier} {v : BitvectorDomain}
    {l : List (AbstractIdentifier × BitvectorDomain)}
    {b : AbstractIdentifier × BitvectorDomain} (hb : b ∈ btreeInsert k v l) :
    b = (k, v) ∨ b ∈ l := by
  induction l with
  | nil => simpa [btreeInsert] using hb
  | cons e rest ih =>
    rw [btreeInsert] at hb
    by_cases h1 : k < e.1
    · simp only [if_pos h1] at hb
      rcases List.mem_cons.mp hb with hb | hb
      · exact Or.inl hb
      · exact Or.inr hb
    · simp only [if_neg h1] at hb
      by_cases h2 : k = e.1
      · simp only [if_pos h2] at hb
        rcases List.mem_cons.mp hb with hb | hb
        · exact Or.inl hb
        · exact Or.inr (List.mem_cons_of_mem e hb)
      · simp only [if_neg h2] at hb
        rcases List.mem_cons.mp hb with hb | hb
        · exact Or.inr (hb ▸ List.mem_cons_self e rest)
        · rcases ih hb with hb | hb
          · exact Or.inl hb
          · exact Or.inr (List.mem_cons_of_mem e hb)

theorem btreeInsert_sorted (k : AbstractIdentifier) (v : BitvectorDomain)
    {l : List (AbstractIdentifier × BitvectorDomain)} (h : EntriesSorted l) :
    EntriesSorted (btreeInsert k v l) := by
  induction l with
  | nil => simp [btreeInsert, EntriesSorted]
  | cons e rest ih =>
    rw [EntriesSorted, List.pairwise_cons] at h
    obtain ⟨he, hrest⟩ := h
    rw [btreeInsert]
    by_cases h1 : k < e.1
    · simp only [if_pos h1]
      refine List.Pairwise.cons ?_ (List.Pairwise.cons he hrest)
      intro b hb
      rcases List.mem_cons.mp hb with hb | hb
      · rw [hb]; exact h1
      · exact lt_trans h1 (he b hb)
    · simp only [if_neg h1]
      by_cases h2 : k = e.1
      · simp only [if_pos h2]
        exact List.Pairwise.cons (fun b hb => h2 ▸ he b hb) hrest
      · simp only [if_neg h2]
        refine List.Pairwise.cons ?_ (ih hrest)
        have hk : e.1 < k := lt_of_le_of_ne (not_lt.mp h1) (fun h => h2 h.symm)
        intro b hb
        rcases mem_btreeInsert hb with hb | hb
        · rw [hb]; exact hk
        · exact he b hb

theorem btreeLookup_btreeInsert_self (k : AbstractIdentifier) (v : BitvectorDomain)
    (l : List (AbstractIdentifier × BitvectorDomain)) :
    btreeLookup k (btreeInsert k v l) = some v := by
  induction l with
  | nil => simp [btreeInsert, btreeLookup]
  | cons e rest ih =>
    rw [btreeInsert]
    by_cases h1 : k < e.1
    · simp [if_pos h1, btreeLookup]
    · by_cases h2 : k = e.1
      · simp [if_neg h1, if_pos h2, btreeLookup]
      · simp [if_neg h1, if_neg h2, btreeLookup, ih, h2]

theorem btreeLookup_btreeInsert_ne {k' k : AbstractIdentifier} (h : k' ≠ k)
    (v : BitvectorDomain) (l : List (AbstractIdentifier × BitvectorDomain)) :
    btreeLookup k' (btreeInsert k v l) = btreeLookup k' l := by
  induction l with
  | nil => simp [btreeInsert, btreeLookup, h]
  | cons e rest ih =>
    rw [btreeInsert]
    by_cases h1 : k < e.1
    · simp [if_pos h1, btreeLookup, h]
    · by_cases h2 : k = e.1
      · subst h2
        simp [if_neg h1, btreeLookup, h]
      · by_cases h3 : k' = e.1
        · simp [if_neg h1, if_neg h2, btreeLookup, h3]
        · simp [if_neg h1, if_neg h2, btreeLookup, h3, ih]

theorem mem_of_btreeLookup_eq_some {k : AbstractIdentifier} {w : BitvectorDomain}
    {l : List (AbstractIdentifier × BitvectorDomain)} (h : btreeLookup k l = some w) :
    (k, w) ∈ l := by
  induction l with
  | nil => simp [btreeLookup] at h
  | cons e rest ih =>
    rw [btreeLookup] at h
    by_cases h1 : k = e.1
    · rw [if_pos h1] at h
      have h2 : e.2 = w := Option.some_inj.mp h
      rw [List.mem_cons]
      left
      rw [h1, ← h2]
    · rw [if_neg h1] at h
      exact List.mem_cons_of_mem e (ih h)

theorem btreeLookup_eq_none {k : AbstractIdentifier}
    {l : List (AbstractIdentifier × BitvectorDomain)} (h : ∀ b ∈ l, k ≠ b.1) :
    btreeLookup k l = none := by
  induction l with
  | nil => rfl
  | cons e rest ih =>
    rw [btreeLookup, if_neg (h e (List.mem_cons_self e rest))]
    exact ih fun b hb => h b (List.mem_cons_of_mem e hb)

theorem length_btreeInsert_of_none {k : AbstractIdentifier} {v : BitvectorDomain}
    {l : List (AbstractIdentifier × BitvectorDomain)} (h : btreeLookup k l = none) :
    (btreeInsert k v l).length = l.length + 1 := by
  induction l with
  | nil => rfl
  | cons e rest ih =>
    rw [btreeLookup] at h
    by_cases h1 : k = e.1
    · rw [if_pos h1] at h; exact absurd h (by simp)
    · rw [if_neg h1] at h
      rw [btreeInsert]
      by_cases h2 : k < e.1
      · simp [if_pos h2]
      · simp [if_neg h2, if_neg h1, ih h]

theorem length_btreeInsert_of_some {k : AbstractIdentifier} {v w : BitvectorDomain}
    {l : List (AbstractIdentifier × BitvectorDomain)} (hs : EntriesSorted l)
    (h : btreeLookup k l = some w) :
    (btreeInsert k v l).length = l.length := by
  induction l with
  | nil => simp [btreeLookup] at h
  | cons e rest ih =>
    rw [btreeLookup] at h
    by_cases h1 : k = e.1
    · rw [btreeInsert, if_neg (by rw [h1]; exact lt_irrefl e.1), if_pos h1]
      rfl
    · rw [if_neg h1] at h
      have hmem : (k, w) ∈ rest := mem_of_btreeLookup_eq_some h
      have hgt : e.1 < k := List.rel_of_pairwise_cons hs hmem
      rw [btreeInsert, if_neg (asymm hgt), if_neg h1]
      rw [EntriesSorted, List.pairwise_cons] at hs
      simp [ih hs.2 h]

/-- The combination of the two looked-up offsets for one identifier that
`PointerDomain::merge` produces: present in both means the bit-vector merge of
the two offsets, present in one means that offset copied unchanged. -/
def combineOffsets : Option BitvectorDomain → Option BitvectorDomain → Option BitvectorDomain
  | some o1, some o2 => some (o1.merge o2)
  | some o1, none => some o1
  | none, some o2 => some o2
  | none, none => none

theorem combineOffsets_none_right (x : Option BitvectorDomain) :
    combineOffsets x none = x := by
  cases x <;> rfl

/-- The loop body of `PointerDomain::merge`: starting from a clone of `self`'s
map, walk `other`'s entries; a key already present is overwritten with the
merge of the present offset and `other`'s offset, a fresh key is inserted with
`other`'s offset unchanged. -/
def mergeEntries (self other : List (AbstractIdentifier × BitvectorDomain)) :
    List (AbstractIdentifier × BitvectorDomain) :=
  other.foldl
    (fun merged_map e =>
      match btreeLookup e.1 merged_map with
      | some existing => btreeInsert e.1 (existing.merge e.2) merged_map
      | none => btreeInsert e.1 e.2 merged_map)
    self

theorem mergeEntries_sorted {other self : List (AbstractIdentifier × BitvectorDomain)}
    (hself : EntriesSorted self) : EntriesSorted (mergeEntries self other) := by
  induction other generalizing self with
  | nil => exact hself
  | cons e rest ih =>
    rw [mergeEntries, List.foldl_cons]
    cases btreeLookup e.1 self with
    | some existing => exact ih (btreeInsert_sorted _ _ hself)
    | none => exact ih (btreeInsert_sorted _ _ hself)

theorem btreeLookup_mergeEntries (k : AbstractIdentifier)
    {other : List (AbstractIdentifier × BitvectorDomain)}
    (hother : other.Pairwise (fun a b => a.1 ≠ b.1)) :
    ∀ self, btreeLookup k (mergeEntries self other) =
      combineOffsets (btreeLookup k self) (btreeLookup k other) := by
  induction other with
  | nil =>
    intro self
    rw [mergeEntries, List.foldl_nil, btreeLookup, combineOffsets_none_right]
  | cons e rest ih =>
    intro self
    rw [List.pairwise_cons] at hother
    rw [mergeEntries, List.foldl_cons]
    have step :
        btreeLookup k
          (mergeEntries
            (match btreeLookup e.1 self with
              | some existing => btreeInsert e.1 (existing.merge e.2) self
              | none => btreeInsert e.1 e.2 self)
            rest) =
          combineOffsets
            (btreeLookup k
              (match btreeLookup e.1 self with
                | some existing => btreeInsert e.1 (existing.merge e.2) self
                | none => btreeInsert e.1 e.2 self))
            (btreeLookup k rest) := ih hother.2 _
    rw [mergeEntries] at step
    rw [step]
    by_cases hk : k = e.1
    · have hrest : btreeLookup k rest = none :=
        btreeLookup_eq_none fun b hb => by rw [hk]; exact hother.1 b hb
      rw [hrest, combineOffsets_none_right, btreeLookup, if_pos hk]
      cases hself : btreeLookup e.1 self with
      | some existing =>
        simp only [hself]
        rw [hk, btreeLookup_btreeInsert_self, hself, combineOffsets]
      | none =>
        simp only [hself]
        rw [hk, btreeLookup_btreeInsert_self, hself, combineOffsets]
    · have hskip : btreeLookup k (e :: rest) = btreeLookup k rest := by
        rw [btreeLookup, if_neg hk]
      rw [hskip]
      cases hself : btreeLookup e.1 self with
      | some existing =>
        simp only [hself]
        rw [btreeLookup_btreeInsert_ne hk]
      | none =>
        simp only [hself]
        rw [btreeLookup_btreeInsert_ne hk]

theorem length_mergeEntries_disjoint
    {other : List (AbstractIdentifier × BitvectorDomain)}
    (hother : other.Pairwise (fun a b => a.1 ≠ b.1)) :
    ∀ self, (∀ e ∈ other, btreeLookup e.1 self = none) →
      (mergeEntries self other).length = self.length + other.length := by
  induction other with
  | nil =>
    intro self _
    rw [mergeEntries, List.foldl_nil, List.length_nil]
    omega
  | cons e rest ih =>
    intro self hdisj
    rw [List.pairwise_cons] at hother
    rw [mergeEntries, List.foldl_cons]
    have hnone : btreeLookup e.1 self = none := hdisj e (List.mem_cons_self e rest)
    rw [hnone]
    have hdisj2 : ∀ e2 ∈ rest, btreeLookup e2.1 (btreeInsert e.1 e.2 self) = none := by
      intro e2 he2
      rw [btreeLookup_btreeInsert_ne (Ne.symm (hother.1 e2 he2))]
      exact hdisj e2 (List.mem_cons_of_mem e he2)
    have := ih hother.2 (btreeInsert e.1 e.2 self) hdisj2
    rw [mergeEntries] at this
    rw [this, length_btreeInsert_of_none hnone, List.length_cons]
    omega

theorem entries_ext_of_lookup :
    ∀ {l1 l2 : List (AbstractIdentifier × BitvectorDomain)},
      EntriesSorted l1 → EntriesSorted l2 →
      (∀ k, btreeLookup k l1 = btreeLookup k l2) → l1 = l2 := by
  intro l1
  induction l1 with
  | nil =>
    intro l2 _ _ h
    cases l2 with
    | nil => rfl
    | cons e2 r2 =>
      have := h e2.1
      rw [btreeLookup, btreeLookup, if_pos rfl] at this
      exact absurd this (by simp)
  | cons e1 r1 ih =>
    intro l2 hs1 hs2 h
    cases l2 with
    | nil =>
      have := h e1.1
      rw [btreeLookup, btreeLookup, if_pos rfl] at this
      exact absurd this (by simp)
    | cons e2 r2 =>
      have hkey : e1.1 = e2.1 := by
        rcases lt_trichotomy e1.1 e2.1 with hlt | heq | hgt
        · exfalso
          have h1 := h e1.1
          rw [btreeLookup, if_pos rfl, btreeLookup, if_neg (ne_of_lt hlt)] at h1
          have : btreeLookup e1.1 r2 = none :=
            btreeLookup_eq_none fun b hb =>
              ne_of_lt (lt_trans hlt (List.rel_of_pairwise_cons hs2 hb))
          rw [this] at h1
          exact absurd h1 (by simp)
        · exact heq
        · exfalso
          have h1 := h e2.1
          rw [btreeLookup, btreeLookup, if_pos rfl, if_neg (ne_of_lt hgt)] at h1
          have : btreeLookup e2.1 r1 = none :=
            btreeLookup_eq_none fun b hb =>
              ne_of_lt (lt_trans hgt (List.rel_of_pairwise_cons hs1 hb))
          rw [this] at h1
          exact absurd h1 (by simp)
      have hval : e1.2 = e2.2 := by
        have h1 := h e1.1
        rw [btreeLookup, if_pos rfl, btreeLookup, if_pos hkey] at h1
        exact Option.some_inj.mp h1
      have hpair : e1 = e2 := Prod.ext hkey hval
      rw [EntriesSorted, List.pairwise_cons] at hs1 hs2
      have htails : ∀ k, btreeLookup k r1 = btreeLookup k r2 := by
        intro k
        by_cases hk1 : k = e1.1
        · have hn1 : btreeLookup k r1 = none :=
            btreeLookup_eq_none fun b hb => hk1 ▸ ne_of_lt (hs1.1 b hb)
          have hn2 : btreeLookup k r2 = none :=
            btreeLookup_eq_none fun b hb => (hk1.trans hkey) ▸ ne_of_lt (hs2.1 b hb)
          rw [hn1, hn2]
        · have h1 := h k
          rw [btreeLookup, if_neg hk1, btreeLookup, if_neg (hkey ▸ hk1)] at h1
          exact h1
      rw [hpair, ih hs1.2 hs2.2 htails]

/-- Embeds `PointerDomain` (data.rs, lines 21-27): an abstract pointer, a map from an
abstract identifier to the offset in the pointed-to object, embedded as the
sorted association list of the `BTreeMap` together with its representation
invariant. The map should never be empty; more than one key means the pointer
may point to any of the contained objects. -/
structure PointerDomain where
  entries : List (AbstractIdentifier × BitvectorDomain)
  sorted : EntriesSorted entries

theorem PointerDomain.entries_ext {p1 p2 : PointerDomain}
    (h : p1.entries = p2.entries) : p1 = p2 := by
  cases p1
  cases p2
  simp_all

instance : DecidableEq PointerDomain := fun p1 p2 =>
  decidable_of_iff (p1.entries = p2.entries)
    ⟨PointerDomain.entries_ext, fun h => h ▸ rfl⟩

/-- Embeds `PointerDomain::new` (data.rs, lines 30-34): construct a singleton pointer
domain from one target and one offset. -/
def PointerDomain.new (target : AbstractIdentifier) (offset : BitvectorDomain) :
    PointerDomain :=
  ⟨btreeInsert target offset [], btreeInsert_sorted target offset List.Pairwise.nil⟩

/-- Embeds `PointerDomain::bitsize` (data.rs, lines 37-40) reads
`self.0.values().next().unwrap()`: the `unwrap` of the first stored offset is
modelled as an `Option`, which is `none` exactly when the unwrap would
panic on an empty map. -/
def PointerDomain.bitsizeChecked (p : PointerDomain) : Option BitSize :=
  (p.entries.head?).map (fun e => e.2.bitsize)

/-- Total version of `PointerDomain::bitsize`, defaulting to width 0 on the
empty map that the unwrap forbids; on every non-empty map it returns the
bitsize of the first stored offset, exactly as the source. -/
def PointerDomain.bitsize (p : PointerDomain) : BitSize :=
  p.bitsizeChecked.getD 0

/-- Embeds `PointerDomain::merge` (data.rs, lines 42-52): clone `self`'s map, then
for every `(location, offset)` of `other` insert the bit-vector merge of the
two offsets when `location` is already present and `offset` unchanged when it
is not. -/
def PointerDomain.merge (p1 p2 : PointerDomain) : PointerDomain :=
  ⟨mergeEntries p1.entries p2.entries, mergeEntries_sorted p1.sorted⟩

theorem mapOffsets_sorted (f : BitvectorDomain → BitvectorDomain)
    {l : List (AbstractIdentifier × BitvectorDomain)} (h : EntriesSorted l) :
    EntriesSorted (l.map fun e => (e.1, f e.2)) := by
  rw [EntriesSorted, List.pairwise_map]
  exact h.imp fun hab => hab

/-- Embeds `PointerDomain::add_to_offset` (data.rs, lines 54-61): replace every
stored offset by `offset.bin_op(PLUS, value)`. -/
def PointerDomain.add_to_offset (p : PointerDomain) (value : BitvectorDomain) :
    PointerDomain :=
  ⟨p.entries.map fun e => (e.1, e.2.bin_op .PLUS value),
    mapOffsets_sorted (fun o => o.bin_op .PLUS value) p.sorted⟩

/-- Embeds `PointerDomain::sub_from_offset` (data.rs, lines 63-70): replace every
stored offset by `offset.bin_op(MINUS, value)`. -/
def PointerDomain.sub_from_offset (p : PointerDomain) (value : BitvectorDomain) :
    PointerDomain :=
  ⟨p.entries.map fun e => (e.1, e.2.bin_op .MINUS value),
    mapOffsets_sorted (fun o => o.bin_op .MINUS value) p.sorted⟩

/-- Embeds `PointerDomain::iter_targets` (data.rs, lines 72-77): the targets in the
identifier order, together with their offsets. -/
def PointerDomain.iter_targets (p : PointerDomain) :
    List (AbstractIdentifier × BitvectorDomain) :=
  p.entries

/-- Embeds `Data` (data.rs, lines 7-13): an abstract value representing either an
unknown value (`Top`), a pointer or a constant value. -/
inductive Data where
  | Top : BitSize → Data
  | Pointer : PointerDomain → Data
  | Value : BitvectorDomain → Data
deriving DecidableEq

/-- Embeds `Data::bitvector` (data.rs, lines 15-19): wrap a concrete bit-vector as an
exact scalar abstract value. -/
def Data.bitvector (bitv : Bitvector) : Data :=
  .Value (.Value bitv)

/-- Embeds `ValueDomain::bitsize for Data` (data.rs, lines 81-88). -/
def Data.bitsize : Data → BitSize
  | .Top size => size
  | .Pointer pointer => pointer.bitsize
  | .Value bitvec => bitvec.bitsize

/-- Embeds `ValueDomain::new_top for Data` (data.rs, lines 90-92). -/
def Data.new_top (bitsize : BitSize) : Data :=
  .Top bitsize

/-- Embeds `ValueDomain::bin_op for Data` (data.rs, lines 94-107): two scalars
delegate to the exact domain; pointer PLUS scalar (in either order) adds to
the offsets; pointer MINUS scalar subtracts from the offsets; every other
combination collapses to `Top` at `self`'s bitsize. -/
def Data.bin_op (self : Data) (op : BinOpType) (rhs : Data) : Data :=
  match self, op, rhs with
  | .Value left, _, .Value right => .Value (left.bin_op op right)
  | .Pointer pointer, .PLUS, .Value value => .Pointer (pointer.add_to_offset value)
  | .Value value, .PLUS, .Pointer pointer => .Pointer (pointer.add_to_offset value)
  | .Pointer pointer, .MINUS, .Value value => .Pointer (pointer.sub_from_offset value)
  | _, _, _ => Data.new_top self.bitsize

/-- Embeds `ValueDomain::un_op for Data` (data.rs, lines 109-116). -/
def Data.un_op (self : Data) (op : UnOpType) : Data :=
  match self with
  | .Value value => .Value (value.un_op op)
  | _ => Data.new_top self.bitsize

/-- Embeds `ValueDomain::extract for Data` (data.rs, lines 118-125): extract a
sub-bitvector; a non-`Value` operand yields `Data::new_top(self.bitsize())`. -/
def Data.extract (self : Data) (low_bit high_bit : BitSize) : Data :=
  match self with
  | .Value value => .Value (value.extract low_bit high_bit)
  | _ => Data.new_top self.bitsize

/-- Embeds `ValueDomain::cast for Data` (data.rs, lines 127-134): extend or truncate
using the given cast type; a non-`Value` operand yields
`Data::new_top(width)`. -/
def Data.cast (self : Data) (kind : CastType) (width : BitSize) : Data :=
  match self with
  | .Value value => .Value (value.cast kind width)
  | _ => Data.new_top width

/-- Embeds `ValueDomain::concat for Data` (data.rs, lines 136-143): concatenate two
bitvectors, `self` as the more-significant part; unless both operands are
`Value`, the result is `Data::new_top(self.bitsize() + other.bitsize())`. -/
def Data.concat (self other : Data) : Data :=
  match self, other with
  | .Value upper_bits, .Value lower_bits => .Value (upper_bits.concat lower_bits)
  | _, _ => Data.new_top (self.bitsize + other.bitsize)

/-- Embeds `AbstractDomain::top for Data` (data.rs, lines 146-149). -/
def Data.top (self : Data) : Data :=
  .Top self.bitsize

/-- Embeds `AbstractDomain::merge for Data` (data.rs, lines 151-159): any `Top`
operand forces `Top` (at the first matching operand's bitsize, Rust match
order); two pointers merge their pointer domains; two values merge in the
exact domain; a pointer and a value collapse to `Top` at `self`'s bitsize. -/
def Data.merge (self other : Data) : Data :=
  match self, other with
  | .Top bitsize, _ => .Top bitsize
  | _, .Top bitsize => .Top bitsize
  | .Pointer pointer1, .Pointer pointer2 => .Pointer (pointer1.merge pointer2)
  | .Value val1, .Value val2 => .Value (val1.merge val2)
  | .Pointer p, .Value _ => .Top (Data.bitsize (.Pointer p))
  | .Value v, .Pointer _ => .Top (Data.bitsize (.Value v))

theorem btreeInsert_ne_nil (k : AbstractIdentifier) (v : BitvectorDomain)
    (l : List (AbstractIdentifier × BitvectorDomain)) : btreeInsert k v l ≠ [] := by
  cases l with
  | nil => simp [btreeInsert]
  | cons e rest =>
    rw [btreeInsert]
    by_cases h1 : k < e.1
    · simp [if_pos h1]
    · by_cases h2 : k = e.1 <;> simp [if_neg h1, h2]

theorem mergeEntries_ne_nil {self : List (AbstractIdentifier × BitvectorDomain)}
    (other : List (AbstractIdentifier × BitvectorDomain)) (h : self ≠ []) :
    mergeEntries self other ≠ [] := by
  induction other generalizing self with
  | nil => exact h
  | cons e rest ih =>
    rw [mergeEntries, List.foldl_cons]
    cases btreeLookup e.1 self with
    | some existing =>
      have h2 := ih (btreeInsert_ne_nil e.1 (existing.merge e.2) self)
      rw [mergeEntries] at h2
      exact h2
    | none =>
      have h2 := ih (btreeInsert_ne_nil e.1 e.2 self)
      rw [mergeEntries] at h2
      exact h2

theorem bitsizeChecked_isSome_of_ne_nil {p : PointerDomain} (h : p.entries ≠ []) :
    p.bitsizeChecked.isSome := by
  rw [PointerDomain.bitsizeChecked]
  cases he : p.entries with
  | nil => exact absurd he h
  | cons e rest => simp [he]

theorem pairwise_key_ne_of_sorted {l : List (AbstractIdentifier × BitvectorDomain)}
    (h : EntriesSorted l) : l.Pairwise (fun a b => a.1 ≠ b.1) :=
  h.imp fun hab => ne_of_lt hab

theorem bitvectorDomain_merge_idem (d : BitvectorDomain) : d.merge d = d := by
  rw [BitvectorDomain.merge, if_pos rfl]

theorem bitvectorDomain_merge_comm {d1 d2 : BitvectorDomain}
    (h : d1.bitsize = d2.bitsize) : d1.merge d2 = d2.merge d1 := by
  rw [BitvectorDomain.merge, BitvectorDomain.merge]
  by_cases he : d1 = d2
  · rw [if_pos he, if_pos he.symm, he]
  · rw [if_neg he, if_neg (Ne.symm he), h]

theorem btreeLookup_merge (p1 p2 : PointerDomain) (k : AbstractIdentifier) :
    btreeLookup k (p1.merge p2).entries =
      combineOffsets (btreeLookup k p1.entries) (btreeLookup k p2.entries) :=
  btreeLookup_mergeEntries k (pairwise_key_ne_of_sorted p2.sorted) p1.entries

theorem pointerDomain_merge_idem (p : PointerDomain) : p.merge p = p := by
  apply PointerDomain.entries_ext
  apply entries_ext_of_lookup (p.merge p).sorted p.sorted
  intro k
  rw [btreeLookup_merge]
  cases h : btreeLookup k p.entries with
  | none => rfl
  | some o => rw [combineOffsets, bitvectorDomain_merge_idem]

theorem btreeLookup_of_mem_sorted {l : List (AbstractIdentifier × BitvectorDomain)}
    (hs : EntriesSorted l) {e : AbstractIdentifier × BitvectorDomain} (he : e ∈ l) :
    btreeLookup e.1 l = some e.2 := by
  induction l with
  | nil => simp at he
  | cons f rest ih =>
    rcases List.mem_cons.mp he with he | he
    · rw [he, btreeLookup, if_pos rfl]
    · have hne : e.1 ≠ f.1 := Ne.symm (ne_of_lt (List.rel_of_pairwise_cons hs he))
      rw [EntriesSorted, List.pairwise_cons] at hs
      rw [btreeLookup, if_neg hne]
      exact ih hs.2 he

theorem btreeLookup_mapOffsets (f : BitvectorDomain → BitvectorDomain)
    (k : AbstractIdentifier) :
    ∀ l : List (AbstractIdentifier × BitvectorDomain),
      btreeLookup k (l.map fun e => (e.1, f e.2)) = (btreeLookup k l).map f := by
  intro l
  induction l with
  | nil => rfl
  | cons e rest ih =>
    rw [List.map_cons, btreeLookup, btreeLookup]
    by_cases hk : k = e.1
    · rw [if_pos hk, if_pos hk]
      rfl
    · rw [if_neg hk, if_neg hk, ih]

theorem nat_mod_add_cancel {a c m : Nat} (hm : 0 < m) (ha : a < m) :
    ((a + c) % m + m - c % m) % m = a := by
  have h1 : c % m < m := Nat.mod_lt _ hm
  rw [Nat.add_sub_assoc (le_of_lt h1), Nat.mod_add_mod]
  have h3 : c - c % m = m * (c / m) :=
    (Nat.sub_eq_iff_eq_add (Nat.mod_le c m)).mpr (Nat.div_add_mod c m).symm
  have h2 : a + c + (m - c % m) = a + (c - c % m) + m := by
    have := Nat.mod_le c m
    omega
  rw [h2, Nat.add_mod_right, h3, Nat.add_mul_mod_self_left, Nat.mod_eq_of_lt ha]

theorem BitvectorDomain.add_sub_cancel {o : BitvectorDomain} (bv : Bitvector)
    (h : o.wf) :
    (o.bin_op .PLUS (.Value bv)).bin_op .MINUS (.Value bv) = o := by
  cases o with
  | Top s => rfl
  | Value b =>
    obtain ⟨w, a⟩ := b
    rw [BitvectorDomain.wf, Bitvector.wf] at h
    rw [BitvectorDomain.bin_op, Bitvector.binop, BitvectorDomain.bin_op, Bitvector.binop]
    have hm : 0 < 2 ^ w := Nat.pos_pow_of_pos w (by omega)
    exact congrArg BitvectorDomain.Value
      (congrArg (Bitvector.mk w) (nat_mod_add_cancel hm h))

instance (b : Bitvector) : Decidable b.wf :=
  decidable_of_iff (b.val < 2 ^ b.width) Iff.rfl

instance (d : BitvectorDomain) : Decidable d.wf :=
  match d with
  | .Value b => decidable_of_iff (b.val < 2 ^ b.width) Iff.rfl
  | .Top _ => isTrue trivial

/-- C1: the claim states that on a `Top` or `Pointer` operand `extract` returns
`Top` at the requested extracted width, `cast` returns `Top` at the requested
width and `concat` returns `Top` at the summed width. The code's `extract`
instead returns `Top(self.bitsize())`, the original width: at the input
`Top(64).extract(0, 31)` it yields `Top(64)` and not the claimed `Top(32)`.
The `cast` and `concat` parts do behave as claimed, shown here at concrete
non-`Value` operands. -/
theorem c1_extract_keeps_original_width :
    (Data.Top 64).extract 0 31 = Data.Top 64
    ∧ (Data.Top 64).extract 0 31 ≠ Data.Top 32
    ∧ (Data.Pointer (PointerDomain.new 1 (.Top 64))).extract 0 31 = Data.Top 64
    ∧ (Data.Pointer (PointerDomain.new 1 (.Top 64))).extract 0 31 ≠ Data.Top 32
    ∧ (Data.Top 64).cast .SIGNED 32 = Data.Top 32
    ∧ (Data.Pointer (PointerDomain.new 1 (.Top 64))).cast .UNSIGNED 128 = Data.Top 128
    ∧ (Data.Top 64).concat (Data.Top 8) = Data.Top 72
    ∧ (Data.Pointer (PointerDomain.new 1 (.Top 64))).concat (Data.Value (.Top 32)) =
        Data.Top 96 := by
  decide

/-- C2: `PointerDomain::new` always produces a map with exactly one entry, the
merge of two non-empty pointer domains is non-empty, and on all such values
the unwrap inside `bitsize` (modelled by `bitsizeChecked`) succeeds. -/
theorem c2_pointer_domain_never_empty :
    (∀ (t : AbstractIdentifier) (o : BitvectorDomain),
        (PointerDomain.new t o).entries.length = 1
        ∧ (PointerDomain.new t o).bitsizeChecked.isSome)
    ∧ (∀ p1 p2 : PointerDomain, p1.entries ≠ [] → p2.entries ≠ [] →
        (p1.merge p2).entries ≠ [] ∧ (p1.merge p2).bitsizeChecked.isSome) := by
  constructor
  · intro t o
    exact ⟨rfl, rfl⟩
  · intro p1 p2 h1 _
    have hne : (p1.merge p2).entries ≠ [] := mergeEntries_ne_nil p2.entries h1
    exact ⟨hne, bitsizeChecked_isSome_of_ne_nil hne⟩

/-- Witness for C2: the merge of the singleton pointer domains with targets 1
and 2 is non-empty and its bitsize unwrap succeeds. -/
theorem c2_pointer_domain_never_empty_witness :
    ((PointerDomain.new 1 (.Top 64)).merge (PointerDomain.new 2 (.Top 64))).entries ≠ []
    ∧ ((PointerDomain.new 1 (.Top 64)).merge
        (PointerDomain.new 2 (.Top 64))).bitsizeChecked.isSome :=
  c2_pointer_domain_never_empty.2 (PointerDomain.new 1 (.Top 64))
    (PointerDomain.new 2 (.Top 64)) (by decide) (by decide)

/-- C3: `Top` is absorbing for `Data::merge` — merging any value with `Top` of
the same bitsize yields that `Top` on either side, and merging a pointer with
a scalar of equal bitsize yields `Top` at that bitsize on either side. -/
theorem c3_top_absorbs :
    (∀ (x : Data) (n : BitSize), x.bitsize = n →
        x.merge (Data.Top n) = Data.Top n ∧ (Data.Top n).merge x = Data.Top n)
    ∧ (∀ (p : PointerDomain) (v : BitvectorDomain) (n : BitSize),
        (Data.Pointer p).bitsize = n → (Data.Value v).bitsize = n →
        (Data.Pointer p).merge (Data.Value v) = Data.Top n
        ∧ (Data.Value v).merge (Data.Pointer p) = Data.Top n) := by
  constructor
  · intro x n h
    constructor
    · cases x with
      | Top s =>
        have hs : s = n := h
        rw [hs]
        rfl
      | Pointer p => rfl
      | Value v => rfl
    · cases x <;> rfl
  · intro p v n h1 h2
    constructor
    · rw [show (Data.Pointer p).merge (.Value v) = .Top (Data.bitsize (.Pointer p)) from rfl,
        h1]
    · rw [show (Data.Value v).merge (.Pointer p) = .Top (Data.bitsize (.Value v)) from rfl,
        h2]

/-- Witness for C3: absorption at bitsize 64, with a concrete scalar and a
concrete singleton pointer. -/
theorem c3_top_absorbs_witness :
    (Data.Value (.Top 64)).merge (Data.Top 64) = Data.Top 64
    ∧ (Data.Top 64).merge (Data.Value (.Top 64)) = Data.Top 64
    ∧ (Data.Pointer (PointerDomain.new 1 (.Top 64))).merge (Data.Value (.Top 64)) =
        Data.Top 64
    ∧ (Data.Value (.Top 64)).merge (Data.Pointer (PointerDomain.new 1 (.Top 64))) =
        Data.Top 64 :=
  ⟨(c3_top_absorbs.1 (Data.Value (.Top 64)) 64 (by decide)).1,
   (c3_top_absorbs.1 (Data.Value (.Top 64)) 64 (by decide)).2,
   (c3_top_absorbs.2 (PointerDomain.new 1 (.Top 64)) (.Top 64) 64 (by decide) (by decide)).1,
   (c3_top_absorbs.2 (PointerDomain.new 1 (.Top 64)) (.Top 64) 64 (by decide) (by decide)).2⟩

/-- C4: `Data::merge` is idempotent: merging any abstract value with itself
gives it back unchanged, in all three variants. -/
theorem c4_merge_idempotent (x : Data) : x.merge x = x := by
  cases x with
  | Top s => rfl
  | Pointer p => exact congrArg Data.Pointer (pointerDomain_merge_idem p)
  | Value v => exact congrArg Data.Value (bitvectorDomain_merge_idem v)

theorem pointerDomain_merge_comm {p1 p2 : PointerDomain} {n : BitSize}
    (h1 : ∀ e ∈ p1.entries, e.2.bitsize = n) (h2 : ∀ e ∈ p2.entries, e.2.bitsize = n) :
    p1.merge p2 = p2.merge p1 := by
  apply PointerDomain.entries_ext
  apply entries_ext_of_lookup (p1.merge p2).sorted (p2.merge p1).sorted
  intro k
  rw [btreeLookup_merge, btreeLookup_merge]
  cases ha : btreeLookup k p1.entries with
  | none =>
    cases hb : btreeLookup k p2.entries with
    | none => rfl
    | some o2 => rfl
  | some o1 =>
    cases hb : btreeLookup k p2.entries with
    | none => rfl
    | some o2 =>
      have e1 : o1.bitsize = n := h1 _ (mem_of_btreeLookup_eq_some ha)
      have e2 : o2.bitsize = n := h2 _ (mem_of_btreeLookup_eq_some hb)
      exact congrArg some (bitvectorDomain_merge_comm (e1.trans e2.symm))

/-- C5: `Data::merge` is commutative for same-variant operands whose bitsizes
agree (the spec's structural invariant: all offsets of a pointer domain share
the pointer's bitsize, and merge operands share one bitsize). -/
theorem c5_merge_commutative :
    (∀ (a b : PointerDomain) (n : BitSize),
        (∀ e ∈ a.entries, e.2.bitsize = n) →
        (∀ e ∈ b.entries, e.2.bitsize = n) →
        (Data.Pointer a).merge (Data.Pointer b) = (Data.Pointer b).merge (Data.Pointer a))
    ∧ (∀ a b : BitvectorDomain, a.bitsize = b.bitsize →
        (Data.Value a).merge (Data.Value b) = (Data.Value b).merge (Data.Value a)) := by
  constructor
  · intro a b n h1 h2
    exact congrArg Data.Pointer (pointerDomain_merge_comm h1 h2)
  · intro a b h
    exact congrArg Data.Value (bitvectorDomain_merge_comm h)

/-- Witness for C5: commutativity at two concrete singleton pointer domains
with 64-bit offsets and at the two 64-bit scalars 42 and 41. -/
theorem c5_merge_commutative_witness :
    (Data.Pointer (PointerDomain.new 1 (.Value ⟨64, 0⟩))).merge
        (Data.Pointer (PointerDomain.new 2 (.Value ⟨64, 5⟩))) =
      (Data.Pointer (PointerDomain.new 2 (.Value ⟨64, 5⟩))).merge
        (Data.Pointer (PointerDomain.new 1 (.Value ⟨64, 0⟩)))
    ∧ (Data.Value (.Value ⟨64, 42⟩)).merge (Data.Value (.Value ⟨64, 41⟩)) =
        (Data.Value (.Value ⟨64, 41⟩)).merge (Data.Value (.Value ⟨64, 42⟩)) :=
  ⟨c5_merge_commutative.1 (PointerDomain.new 1 (.Value ⟨64, 0⟩))
      (PointerDomain.new 2 (.Value ⟨64, 5⟩)) 64 (by decide) (by decide),
   c5_merge_commutative.2 (.Value ⟨64, 42⟩) (.Value ⟨64, 41⟩) (by decide)⟩

/-- C6: `PointerDomain::merge` computes the key-set union; a shared identifier
gets the bit-vector merge of its two offsets, a one-sided identifier keeps its
offset unchanged, and on disjoint key sets the entry count of the result is
the sum of the two entry counts. -/
theorem c6_pointer_merge_union :
    (∀ (p1 p2 : PointerDomain) (k : AbstractIdentifier),
        (btreeLookup k (p1.merge p2).entries).isSome =
          ((btreeLookup k p1.entries).isSome || (btreeLookup k p2.entries).isSome))
    ∧ (∀ (p1 p2 : PointerDomain) (k : AbstractIdentifier) (o1 o2 : BitvectorDomain),
        btreeLookup k p1.entries = some o1 → btreeLookup k p2.entries = some o2 →
        btreeLookup k (p1.merge p2).entries = some (o1.merge o2))
    ∧ (∀ (p1 p2 : PointerDomain) (k : AbstractIdentifier) (o1 : BitvectorDomain),
        btreeLookup k p1.entries = some o1 → btreeLookup k p2.entries = none →
        btreeLookup k (p1.merge p2).entries = some o1)
    ∧ (∀ (p1 p2 : PointerDomain) (k : AbstractIdentifier) (o2 : BitvectorDomain),
        btreeLookup k p1.entries = none → btreeLookup k p2.entries = some o2 →
        btreeLookup k (p1.merge p2).entries = some o2)
    ∧ (∀ p1 p2 : PointerDomain,
        (∀ e ∈ p2.entries, btreeLookup e.1 p1.entries = none) →
        (p1.merge p2).entries.length = p1.entries.length + p2.entries.length) := by
  refine ⟨?_, ?_, ?_, ?_, ?_⟩
  · intro p1 p2 k
    rw [btreeLookup_merge]
    cases h1 : btreeLookup k p1.entries <;> cases h2 : btreeLookup k p2.entries <;> rfl
  · intro p1 p2 k o1 o2 h1 h2
    rw [btreeLookup_merge, h1, h2]
    rfl
  · intro p1 p2 k o1 h1 h2
    rw [btreeLookup_merge, h1, h2]
    rfl
  · intro p1 p2 k o2 h1 h2
    rw [btreeLookup_merge, h1, h2]
    rfl
  · intro p1 p2 h
    exact length_mergeEntries_disjoint (pairwise_key_ne_of_sorted p2.sorted) p1.entries h

/-- Witness for C6: at a shared key the offsets 2 and 3 merge in the
bit-vector domain, and merging singleton domains with distinct targets 1 and 2
yields 1 + 1 entries. -/
theorem c6_pointer_merge_union_witness :
    btreeLookup 1 ((PointerDomain.new 1 (.Value ⟨64, 2⟩)).merge
        (PointerDomain.new 1 (.Value ⟨64, 3⟩))).entries =
      some ((BitvectorDomain.Value ⟨64, 2⟩).merge (.Value ⟨64, 3⟩))
    ∧ ((PointerDomain.new 1 (.Value ⟨64, 0⟩)).merge
        (PointerDomain.new 2 (.Value ⟨64, 5⟩))).entries.length =
      (PointerDomain.new 1 (.Value ⟨64, 0⟩)).entries.length +
        (PointerDomain.new 2 (.Value ⟨64, 5⟩)).entries.length :=
  ⟨c6_pointer_merge_union.2.1 (PointerDomain.new 1 (.Value ⟨64, 2⟩))
      (PointerDomain.new 1 (.Value ⟨64, 3⟩)) 1 (.Value ⟨64, 2⟩) (.Value ⟨64, 3⟩)
      (by decide) (by decide),
   c6_pointer_merge_union.2.2.2.2 (PointerDomain.new 1 (.Value ⟨64, 0⟩))
      (PointerDomain.new 2 (.Value ⟨64, 5⟩)) (by decide)⟩

/-- C7: pointer PLUS scalar is commutative across operand order, both orders
equal `Pointer(p.add_to_offset(v))`, and `add_to_offset` replaces every stored
offset by `offset + v` computed in the bit-vector domain. -/
theorem c7_plus_pointer_scalar_commutative (p : PointerDomain) (v : BitvectorDomain) :
    (Data.Pointer p).bin_op .PLUS (Data.Value v) =
      (Data.Value v).bin_op .PLUS (Data.Pointer p)
    ∧ (Data.Pointer p).bin_op .PLUS (Data.Value v) = Data.Pointer (p.add_to_offset v)
    ∧ ∀ k, btreeLookup k (p.add_to_offset v).entries =
        (btreeLookup k p.entries).map fun o => o.bin_op .PLUS v :=
  ⟨rfl, rfl, fun k => btreeLookup_mapOffsets (fun o => o.bin_op .PLUS v) k p.entries⟩

/-- C8: pointer MINUS scalar subtracts from the offsets, but scalar MINUS
pointer is not a pointer result: it falls through to `Top` at the left
operand's bitsize. -/
theorem c8_minus_right_pointer_falls_to_top (p : PointerDomain) (v : BitvectorDomain) :
    (Data.Pointer p).bin_op .MINUS (Data.Value v) = Data.Pointer (p.sub_from_offset v)
    ∧ (Data.Value v).bin_op .MINUS (Data.Pointer p) = Data.Top ((Data.Value v).bitsize)
    ∧ ∀ q : PointerDomain, (Data.Value v).bin_op .MINUS (Data.Pointer p) ≠ Data.Pointer q := by
  refine ⟨rfl, rfl, ?_⟩
  intro q h
  exact Data.noConfusion h

theorem map_eq_self_of_mem {α : Type} {l : List α} {f : α → α}
    (h : ∀ a ∈ l, f a = a) : l.map f = l := by
  induction l with
  | nil => rfl
  | cons a rest ih =>
    rw [List.map_cons, h a (List.mem_cons_self a rest),
      ih fun b hb => h b (List.mem_cons_of_mem a hb)]

/-- C9: adding an exact scalar to all offsets and then subtracting it again is
the identity on the pointer domain, provided the stored exact offsets are
well-formed bit-vectors (the exact-arithmetic proviso of the claim). -/
theorem c9_add_sub_offset_inverse (p : PointerDomain) (bv : Bitvector)
    (h : ∀ e ∈ p.entries, e.2.wf) :
    (p.add_to_offset (.Value bv)).sub_from_offset (.Value bv) = p := by
  apply PointerDomain.entries_ext
  show (p.entries.map fun e => (e.1, e.2.bin_op .PLUS (.Value bv))).map
      (fun e => (e.1, e.2.bin_op .MINUS (.Value bv))) = p.entries
  rw [List.map_map]
  apply map_eq_self_of_mem
  intro e he
  show (e.1, (e.2.bin_op .PLUS (.Value bv)).bin_op .MINUS (.Value bv)) = e
  rw [BitvectorDomain.add_sub_cancel bv (h e he)]

/-- Witness for C9: adding and subtracting the 64-bit constant 7 on a
singleton pointer domain with offset 5 gives the domain back. -/
theorem c9_add_sub_offset_inverse_witness :
    ((PointerDomain.new 1 (.Value ⟨64, 5⟩)).add_to_offset (.Value ⟨64, 7⟩)).sub_from_offset
        (.Value ⟨64, 7⟩) = PointerDomain.new 1 (.Value ⟨64, 5⟩) :=
  c9_add_sub_offset_inverse (PointerDomain.new 1 (.Value ⟨64, 5⟩)) ⟨64, 7⟩ (by decide)

/-- C10: `add_to_offset` and `sub_from_offset` keep exactly the key set of the
pointer domain: the same identifiers in the same order and the same entry
count, only the offsets change. -/
theorem c10_offset_ops_preserve_targets (p : PointerDomain) (v : BitvectorDomain) :
    (p.add_to_offset v).entries.map Prod.fst = p.entries.map Prod.fst
    ∧ (p.sub_from_offset v).entries.map Prod.fst = p.entries.map Prod.fst
    ∧ (p.add_to_offset v).entries.length = p.entries.length
    ∧ (p.sub_from_offset v).entries.length = p.entries.length := by
  refine ⟨?_, ?_, ?_, ?_⟩ <;>
    simp [PointerDomain.add_to_offset, PointerDomain.sub_from_offset]
